import Mathlib

/-!
Verification of the trace-event core of this repository against its
natural-language specification.

The embedding covers three components:

1. Event ordering (src/front_end/models/trace/helpers/Trace.ts):
   eventTimeComparator, sortTraceEventsInPlace, mergeEventsInOrder.
2. Async pairing (same file): extractId, matchBeginningAndEndEvents,
   createSortedSyntheticEvents, createMatchedSortedSyntheticEvents.
3. The tree-visibility engine (TreeManipulator class): applyAction,
   removeActiveAction, visibleEntries and the descendant traversal.

Conventions of the embedding:
- TypeScript numbers holding microsecond timestamps are modelled as Int.
- JavaScript Array.prototype.sort with a comparator is a stable sort
  (required by the ECMAScript specification since ES2019); it is modelled
  by List.mergeSort with the Bool predicate "comparator result is not
  positive", which is exactly the order the comparator induces.
- JavaScript Map objects (string-keyed insertion-ordered maps) are
  modelled as association lists: get is the first (and only) matching
  binding, set replaces an existing binding in place or appends a new one.
- Object identity of trace entries (RendererEntry) is modelled by a Nat
  tag, since the engine compares entries by reference only.
-/

namespace DevTools

/-- The TimeSpan shape used by eventTimeComparator: a start timestamp in
microseconds and an optional duration. -/
structure TimeSpan where
  ts : Int
  dur : Option Int
deriving DecidableEq

/-- End time of a span: ts plus duration, an absent duration counting as 0. -/
def endTime (a : TimeSpan) : Int :=
  a.ts + a.dur.getD 0

/-- eventTimeComparator from Trace.ts: compare begin times ascending; on
equal begin times compare end times descending (absent duration is 0);
returns -1, 0 or 1. -/
def eventTimeComparator (a b : TimeSpan) : Int :=
  let aBeginTime := a.ts
  let bBeginTime := b.ts
  if aBeginTime < bBeginTime then -1
  else if aBeginTime > bBeginTime then 1
  else
    let aDuration := a.dur.getD 0
    let bDuration := b.dur.getD 0
    let aEndTime := aBeginTime + aDuration
    let bEndTime := bBeginTime + bDuration
    if aEndTime > bEndTime then -1
    else if aEndTime < bEndTime then 1
    else 0

/-- The Bool order induced by the comparator: the comparator does not
order b strictly before a. -/
def eventLE (a b : TimeSpan) : Bool :=
  decide (eventTimeComparator a b ≤ 0)

/-- sortTraceEventsInPlace from Trace.ts: events.sort(eventTimeComparator).
JavaScript sort is stable, hence the stable mergeSort model. -/
def sortTraceEventsInPlace (events : List TimeSpan) : List TimeSpan :=
  events.mergeSort eventLE

/-- mergeEventsInOrder from Trace.ts: the two-cursor merge loop. In each
iteration of the source loop exactly one of the two pushes fires: the
one guarded by compareValue <= 0 (advancing the first cursor), otherwise
the one guarded by compareValue === 1 (advancing the second cursor); the
trailing while loops copy whichever input remains. -/
def mergeEventsInOrder : List TimeSpan → List TimeSpan → List TimeSpan
  | [], eventsArray2 => eventsArray2
  | event1 :: rest1, [] => event1 :: rest1
  | event1 :: rest1, event2 :: rest2 =>
    let compareValue := eventTimeComparator event1 event2
    if compareValue ≤ 0 then event1 :: mergeEventsInOrder rest1 (event2 :: rest2)
    else event2 :: mergeEventsInOrder (event1 :: rest1) rest2

theorem eventTimeComparator_eq_zero_iff (a b : TimeSpan) :
    eventTimeComparator a b = 0 ↔ a.ts = b.ts ∧ endTime a = endTime b := by
  simp only [eventTimeComparator, endTime]
  split_ifs <;> first | omega | (rw [false_iff]; omega)

theorem eventLE_iff (a b : TimeSpan) :
    eventLE a b = true ↔ a.ts < b.ts ∨ (a.ts = b.ts ∧ endTime b ≤ endTime a) := by
  simp only [eventLE, decide_eq_true_eq, eventTimeComparator, endTime]
  split_ifs <;> omega

theorem eventLE_trans (a b c : TimeSpan) :
    eventLE a b → eventLE b c → eventLE a c := by
  simp only [eventLE_iff]
  omega

theorem eventLE_total (a b : TimeSpan) : eventLE a b || eventLE b a := by
  rcases Decidable.em (eventLE a b = true) with h | h
  · simp [h]
  · have h' : eventLE b a = true := by
      rw [eventLE_iff]
      rw [eventLE_iff] at h
      omega
    simp [h']

theorem mergeEventsInOrder_eq_merge :
    ∀ a b : List TimeSpan, mergeEventsInOrder a b = List.merge a b eventLE
  | [], b => by simp [mergeEventsInOrder, List.merge]
  | e :: a, [] => by simp [mergeEventsInOrder]
  | e1 :: a, e2 :: b => by
    simp only [mergeEventsInOrder, List.merge, eventLE]
    by_cases h : eventTimeComparator e1 e2 ≤ 0
    · simp [h, mergeEventsInOrder_eq_merge a (e2 :: b)]
    · simp [h, mergeEventsInOrder_eq_merge (e1 :: a) b]

/-- A sorted list that is a permutation of another sorted list is equal to it,
provided the order relation is antisymmetric on the members involved. -/
theorem eq_of_perm_of_pairwise_antisymmOn {α : Type} {R : α → α → Prop} :
    ∀ {l₁ l₂ : List α}, l₁.Perm l₂ → l₁.Pairwise R → l₂.Pairwise R →
      (∀ x, x ∈ l₁ → ∀ y, y ∈ l₁ → R x y → R y x → x = y) → l₁ = l₂
  | [], l₂, hp, _, _, _ => hp.nil_eq
  | x :: xs, [], hp, _, _, _ => absurd hp (by simp)
  | x :: xs, y :: ys, hp, h₁, h₂, anti => by
    have hxy : x = y := by
      by_contra hne
      have hxl : x ∈ y :: ys := hp.mem_iff.mp (List.mem_cons_self x xs)
      have hx : x ∈ ys := by
        rcases List.mem_cons.mp hxl with h | h
        · exact absurd h hne
        · exact h
      have hyx : R y x := (List.rel_of_pairwise_cons h₂) hx
      have hyl : y ∈ x :: xs := hp.mem_iff.mpr (List.mem_cons_self y ys)
      have hy : y ∈ xs := by
        rcases List.mem_cons.mp hyl with h | h
        · exact absurd h.symm hne
        · exact h
      have hxy' : R x y := (List.rel_of_pairwise_cons h₁) hy
      exact hne (anti x (List.mem_cons_self x xs) y (List.mem_cons_of_mem _ hy) hxy' hyx)
    subst hxy
    have hp' : xs.Perm ys := hp.cons_inv
    have hrec := eq_of_perm_of_pairwise_antisymmOn hp' h₁.of_cons h₂.of_cons
      (fun a ha b hb => anti a (List.mem_cons_of_mem _ ha) b (List.mem_cons_of_mem _ hb))
    rw [hrec]

/-- Tagging a sorted list with strictly increasing indices keeps it sorted
under the index-refined order enumLE. -/
theorem pairwise_enumLE_enumFrom {α : Type} (le : α → α → Bool) :
    ∀ (l : List α) (n : Nat), l.Pairwise (fun a b => le a b) →
      (l.enumFrom n).Pairwise (fun p q => List.enumLE le p q)
  | [], _, _ => by simp
  | x :: xs, n, h => by
    rw [List.enumFrom_cons]
    refine List.Pairwise.cons ?_ (pairwise_enumLE_enumFrom le xs (n + 1) h.of_cons)
    intro q hq
    have h1 : le x q.2 = true := (List.rel_of_pairwise_cons h) (List.snd_mem_of_mem_enumFrom hq)
    have h2 : n + 1 ≤ q.1 := List.le_fst_of_mem_enumFrom hq
    simp only [List.enumLE, h1, if_true]
    split
    · simpa using Nat.le_of_lt (by omega)
    · rfl

/-- Two index-tagged elements each at most the other under enumLE carry the
same index. -/
theorem enumLE_antisymm_fst {α : Type} (le : α → α → Bool) (x y : Nat × α)
    (h1 : List.enumLE le x y = true) (h2 : List.enumLE le y x = true) : x.1 = y.1 := by
  simp only [List.enumLE] at h1 h2
  split_ifs at h1 h2 <;> simp_all <;> omega

/-- The merge of two sorted inputs coincides with the stable sort of their
concatenation: proved by lifting both sides to index-tagged lists, where the
refined order is antisymmetric, so sorted permutations are unique. -/
theorem mergeEventsInOrder_eq_stable_sort (a b : List TimeSpan)
    (ha : a.Pairwise (fun x y => eventLE x y))
    (hb : b.Pairwise (fun x y => eventLE x y)) :
    mergeEventsInOrder a b = sortTraceEventsInPlace (a ++ b) := by
  rw [mergeEventsInOrder_eq_merge, sortTraceEventsInPlace]
  have henum : (List.mergeSort ((a ++ b).enum) (List.enumLE eventLE)).map (·.2)
      = List.mergeSort (a ++ b) eventLE := List.mergeSort_enum
  rw [← henum]
  have cross : ∀ x y : Nat × TimeSpan,
      x ∈ a.enum → y ∈ List.enumFrom a.length b → x.1 ≤ y.1 := by
    intro x y hx hy
    have hx0 : x ∈ List.enumFrom 0 a := by simpa [List.enum_eq_enumFrom] using hx
    have h1 := List.fst_lt_add_of_mem_enumFrom hx0
    have h2 := List.le_fst_of_mem_enumFrom hy
    omega
  have hs : (List.merge a.enum (List.enumFrom a.length b) (List.enumLE eventLE)).map (·.2)
      = List.merge (a.enum.map (·.2)) ((List.enumFrom a.length b).map (·.2)) eventLE :=
    List.merge_stable a.enum (List.enumFrom a.length b) cross
  rw [List.enum_eq_enumFrom, List.enumFrom_map_snd, List.enumFrom_map_snd,
    ← List.enum_eq_enumFrom] at hs
  rw [← hs]
  congr 1
  rw [List.enum_append]
  have hta : (a.enum).Pairwise (fun p q => List.enumLE eventLE p q) := by
    rw [List.enum_eq_enumFrom]
    exact pairwise_enumLE_enumFrom eventLE a 0 ha
  have htb : (List.enumFrom a.length b).Pairwise (fun p q => List.enumLE eventLE p q) :=
    pairwise_enumLE_enumFrom eventLE b a.length hb
  have hnd : (List.map Prod.fst (a.enum ++ List.enumFrom a.length b)).Nodup := by
    rw [List.map_append, List.enum_eq_enumFrom, List.enumFrom_map_fst, List.enumFrom_map_fst]
    have hr : List.range' 0 a.length ++ List.range' a.length b.length
        = List.range' 0 (a.length + b.length) := by
      have h := List.range'_append_1 0 a.length b.length
      simpa [Nat.add_comm] using h
    rw [hr]
    exact List.nodup_range' 0 (a.length + b.length)
  apply eq_of_perm_of_pairwise_antisymmOn
  · exact (List.merge_perm_append _).trans (List.mergeSort_perm _ _).symm
  · exact List.sorted_merge (List.enumLE_trans eventLE_trans) (List.enumLE_total eventLE_total)
      _ _ hta htb
  · exact List.sorted_mergeSort (List.enumLE_trans eventLE_trans) (List.enumLE_total eventLE_total) _
  · intro x hx y hy rxy ryx
    have hx' : x ∈ a.enum ++ List.enumFrom a.length b := by
      have := List.mem_merge.mp hx
      simpa using this
    have hy' : y ∈ a.enum ++ List.enumFrom a.length b := by
      have := List.mem_merge.mp hy
      simpa using this
    exact List.inj_on_of_nodup_map hnd hx' hy' (enumLE_antisymm_fst eventLE x y rxy ryx)

/-- C2: for inputs a and b each already sorted by the canonical comparator,
mergeEventsInOrder returns a permutation of a ++ b that is sorted by the
canonical comparator; on ties (comparator result at most 0) the element of
a is emitted before the element of b, and the result equals the stable sort
of a ++ b, which resolves ties with a before b. -/
theorem mergeEventsInOrder_spec (a b : List TimeSpan)
    (ha : a.Pairwise (fun x y => eventLE x y))
    (hb : b.Pairwise (fun x y => eventLE x y)) :
    (mergeEventsInOrder a b).Perm (a ++ b) ∧
    (mergeEventsInOrder a b).Pairwise (fun x y => eventLE x y) ∧
    mergeEventsInOrder a b = sortTraceEventsInPlace (a ++ b) ∧
    ∀ x y : TimeSpan, eventTimeComparator x y ≤ 0 → mergeEventsInOrder [x] [y] = [x, y] := by
  refine ⟨?_, ?_, mergeEventsInOrder_eq_stable_sort a b ha hb, ?_⟩
  · rw [mergeEventsInOrder_eq_merge]
    exact List.merge_perm_append eventLE
  · rw [mergeEventsInOrder_eq_merge]
    exact List.sorted_merge eventLE_trans eventLE_total a b ha hb
  · intro x y h
    simp [mergeEventsInOrder, h]

theorem mergeEventsInOrder_spec_witness :
    (mergeEventsInOrder [TimeSpan.mk 0 (some 5), TimeSpan.mk 2 none]
        [TimeSpan.mk 0 (some 1), TimeSpan.mk 3 none]).Perm
      ([TimeSpan.mk 0 (some 5), TimeSpan.mk 2 none] ++
        [TimeSpan.mk 0 (some 1), TimeSpan.mk 3 none]) ∧
    (mergeEventsInOrder [TimeSpan.mk 0 (some 5), TimeSpan.mk 2 none]
        [TimeSpan.mk 0 (some 1), TimeSpan.mk 3 none]).Pairwise (fun x y => eventLE x y) ∧
    mergeEventsInOrder [TimeSpan.mk 0 (some 5), TimeSpan.mk 2 none]
        [TimeSpan.mk 0 (some 1), TimeSpan.mk 3 none]
      = sortTraceEventsInPlace ([TimeSpan.mk 0 (some 5), TimeSpan.mk 2 none] ++
          [TimeSpan.mk 0 (some 1), TimeSpan.mk 3 none]) ∧
    ∀ x y : TimeSpan, eventTimeComparator x y ≤ 0 → mergeEventsInOrder [x] [y] = [x, y] :=
  mergeEventsInOrder_spec _ _ (by decide) (by decide)

/-- C3: sortEvents orders every event collection by start time ascending and,
for equal start times, by end time descending, an absent duration counting
as 0; events with equal start and equal end compare as equal. -/
theorem sortTraceEventsInPlace_orders_events :
    (∀ events : List TimeSpan,
      (sortTraceEventsInPlace events).Perm events ∧
      (sortTraceEventsInPlace events).Pairwise
        (fun a b => a.ts < b.ts ∨ (a.ts = b.ts ∧ endTime b ≤ endTime a))) ∧
    ∀ a b : TimeSpan, eventTimeComparator a b = 0 ↔ a.ts = b.ts ∧ endTime a = endTime b := by
  constructor
  · intro events
    constructor
    · exact List.mergeSort_perm events eventLE
    · exact (List.sorted_mergeSort eventLE_trans eventLE_total events).imp
        (fun hxy => (eventLE_iff _ _).mp hxy)
  · exact eventTimeComparator_eq_zero_iff

/-- C4: sortEvents is idempotent; sorting a collection already sorted by the
canonical comparator returns it unchanged, hence sorting twice equals
sorting once. -/
theorem sortTraceEventsInPlace_idempotent :
    (∀ events : List TimeSpan, events.Pairwise (fun a b => eventLE a b) →
      sortTraceEventsInPlace events = events) ∧
    ∀ events : List TimeSpan,
      sortTraceEventsInPlace (sortTraceEventsInPlace events) = sortTraceEventsInPlace events := by
  constructor
  · intro events h
    exact List.mergeSort_of_sorted h
  · intro events
    exact List.mergeSort_of_sorted (List.sorted_mergeSort eventLE_trans eventLE_total events)

theorem sortTraceEventsInPlace_idempotent_witness :
    sortTraceEventsInPlace [TimeSpan.mk 1 none, TimeSpan.mk 2 (some 3)]
      = [TimeSpan.mk 1 none, TimeSpan.mk 2 (some 3)] :=
  sortTraceEventsInPlace_idempotent.1 _ (by decide)

/-- The trace event phases of nestable async events: ASYNC_NESTABLE_START,
ASYNC_NESTABLE_END and ASYNC_NESTABLE_INSTANT. -/
inductive Phase where
  | asyncNestableStart
  | asyncNestableEnd
  | asyncNestableInstant
deriving DecidableEq

/-- The optional id2 record of an async event; localId models the field
called local in the source (local is a reserved word in Lean). -/
structure Id2 where
  global : Option String
  localId : Option String
deriving DecidableEq

/-- A nestable async trace event as consumed by the pairing functions. -/
structure AsyncEvent where
  cat : String
  name : String
  ph : Phase
  pid : Int
  tid : Int
  ts : Int
  id : Option String
  id2 : Option Id2
deriving DecidableEq

/-- extractId from Trace.ts: the id field, else the global id2 field, else
the local id2 field; the nullish-coalescing chain on optional fields. -/
def extractId (event : AsyncEvent) : Option String :=
  event.id <|> event.id2.bind Id2.global <|> event.id2.bind Id2.localId

/-- One entry of the matching map: the begin and end slots for one key. -/
structure EventPair where
  beginEvent : Option AsyncEvent
  endEvent : Option AsyncEvent
deriving DecidableEq

/-- JavaScript Map.get modelled on an insertion-ordered association list. -/
def mapGet {κ β : Type} [DecidableEq κ] : List (κ × β) → κ → Option β
  | [], _ => none
  | (k, v) :: rest, key => if k = key then some v else mapGet rest key

/-- JavaScript Map.set modelled on an insertion-ordered association list:
replace an existing binding in place, else append a new binding. -/
def mapSet {κ β : Type} [DecidableEq κ] : List (κ × β) → κ → β → List (κ × β)
  | [], key, v => [(key, v)]
  | (k, w) :: rest, key, v =>
    if k = key then (key, v) :: rest else (k, w) :: mapSet rest key v

/-- One iteration of the loop in matchBeginningAndEndEvents: skip events
without an id, compute the synthetic key, fetch or insert the slot pair
(Platform.MapUtilities.getWithDefault inserts the default), and store the
event into the begin or end slot according to its phase. -/
def matchStep (matchedPairs : List (String × EventPair)) (event : AsyncEvent) :
    List (String × EventPair) :=
  match extractId event with
  | none => matchedPairs
  | some i =>
    let syntheticId := event.cat ++ ":" ++ i ++ ":" ++ event.name
    let otherEventsWithID := (mapGet matchedPairs syntheticId).getD ⟨none, none⟩
    let updated :=
      if event.ph = Phase.asyncNestableStart then
        { otherEventsWithID with beginEvent := some event }
      else if event.ph = Phase.asyncNestableEnd then
        { otherEventsWithID with endEvent := some event }
      else otherEventsWithID
    mapSet matchedPairs syntheticId updated

/-- matchBeginningAndEndEvents from Trace.ts. -/
def matchBeginningAndEndEvents (unpairedEvents : List AsyncEvent) :
    List (String × EventPair) :=
  unpairedEvents.foldl matchStep []

/-- A synthetic paired event as built by createSortedSyntheticEvents: its
cat, ph, pid and tid come from the end event, its name from the begin
event, its id is the synthetic key, ts is the begin time and dur the
difference of the two timestamps. -/
structure SyntheticEvent where
  cat : String
  ph : Phase
  pid : Int
  tid : Int
  id : String
  name : String
  dur : Int
  ts : Int
  beginEvent : AsyncEvent
  endEvent : AsyncEvent
deriving DecidableEq

/-- The loop body of createSortedSyntheticEvents: keys missing either slot
are skipped, and a pair whose duration is negative is dropped. -/
def makeSyntheticEvent (id : String) (eventsPair : EventPair) : Option SyntheticEvent :=
  match eventsPair.beginEvent, eventsPair.endEvent with
  | some b, some e =>
    let event : SyntheticEvent :=
      { cat := e.cat, ph := e.ph, pid := e.pid, tid := e.tid, id := id, name := b.name,
        dur := e.ts - b.ts, ts := b.ts, beginEvent := b, endEvent := e }
    if event.dur < 0 then none else some event
  | _, _ => none

/-- createSortedSyntheticEvents from Trace.ts: build the surviving pairs in
map order, then sort ascending by ts; the JavaScript comparator
a.ts - b.ts under the stable Array sort is the stable sort by ts. -/
def createSortedSyntheticEvents (matchedPairs : List (String × EventPair)) :
    List SyntheticEvent :=
  (matchedPairs.filterMap (fun p => makeSyntheticEvent p.1 p.2)).mergeSort
    (fun a b => decide (a.ts ≤ b.ts))

/-- createMatchedSortedSyntheticEvents from Trace.ts: the composition of
matching and synthetic-event construction. -/
def createMatchedSortedSyntheticEvents (unpairedAsyncEvents : List AsyncEvent) :
    List SyntheticEvent :=
  createSortedSyntheticEvents (matchBeginningAndEndEvents unpairedAsyncEvents)

/-- C5: a begin event at t0 and an end event at t1 sharing category, name
and identifier pair to exactly one synthetic event with ts t0 and duration
t1 - t0 when t0 is at most t1; they pair to nothing when t1 is before t0;
and any single event alone pairs to nothing. -/
theorem pairAsyncEvents_basic (b e : AsyncEvent) (i : String)
    (hbp : b.ph = Phase.asyncNestableStart) (hep : e.ph = Phase.asyncNestableEnd)
    (hcat : e.cat = b.cat) (hname : e.name = b.name)
    (hbi : extractId b = some i) (hei : extractId e = some i) :
    (b.ts ≤ e.ts →
      (createMatchedSortedSyntheticEvents [b, e]).map (fun s => (s.ts, s.dur))
        = [(b.ts, e.ts - b.ts)]) ∧
    (e.ts < b.ts → createMatchedSortedSyntheticEvents [b, e] = []) ∧
    ∀ x : AsyncEvent, createMatchedSortedSyntheticEvents [x] = [] := by
  refine ⟨?_, ?_, ?_⟩
  · intro hle
    have hd : ¬ (e.ts < b.ts) := by omega
    simp [createMatchedSortedSyntheticEvents, matchBeginningAndEndEvents, matchStep,
      hbi, hei, hbp, hep, hcat, hname, mapGet, mapSet, makeSyntheticEvent,
      createSortedSyntheticEvents, List.filterMap_cons, hd]
  · intro hlt
    simp [createMatchedSortedSyntheticEvents, matchBeginningAndEndEvents, matchStep,
      hbi, hei, hbp, hep, hcat, hname, mapGet, mapSet, makeSyntheticEvent,
      createSortedSyntheticEvents, List.filterMap_cons, hlt]
  · intro x
    cases hx : extractId x with
    | none =>
      simp [createMatchedSortedSyntheticEvents, matchBeginningAndEndEvents, matchStep,
        hx, createSortedSyntheticEvents]
    | some j =>
      cases hph : x.ph <;>
        simp [createMatchedSortedSyntheticEvents, matchBeginningAndEndEvents, matchStep,
          hx, hph, mapGet, mapSet, makeSyntheticEvent, createSortedSyntheticEvents,
          List.filterMap_cons]

/-- A concrete begin event used by the pairing witnesses. -/
def witnessBeginEvent : AsyncEvent :=
  { cat := "cat", name := "op", ph := Phase.asyncNestableStart, pid := 1, tid := 2,
    ts := 5, id := some "7", id2 := none }

/-- A concrete end event matching witnessBeginEvent, four microseconds later. -/
def witnessEndEvent : AsyncEvent :=
  { cat := "cat", name := "op", ph := Phase.asyncNestableEnd, pid := 1, tid := 2,
    ts := 9, id := some "7", id2 := none }

/-- A concrete end event matching witnessBeginEvent but earlier than it. -/
def witnessEarlyEndEvent : AsyncEvent :=
  { witnessEndEvent with ts := 3 }

theorem pairAsyncEvents_basic_witness :
    (createMatchedSortedSyntheticEvents [witnessBeginEvent, witnessEndEvent]).map
        (fun s => (s.ts, s.dur)) = [(5, 4)] ∧
    createMatchedSortedSyntheticEvents [witnessBeginEvent, witnessEarlyEndEvent] = [] ∧
    createMatchedSortedSyntheticEvents [witnessBeginEvent] = [] :=
  ⟨(pairAsyncEvents_basic witnessBeginEvent witnessEndEvent "7" rfl rfl rfl rfl rfl rfl).1
      (by decide),
    (pairAsyncEvents_basic witnessBeginEvent witnessEarlyEndEvent "7" rfl rfl rfl rfl rfl
        rfl).2.1 (by decide),
    (pairAsyncEvents_basic witnessBeginEvent witnessEndEvent "7" rfl rfl rfl rfl rfl
        rfl).2.2 witnessBeginEvent⟩

/-- The synthetic grouping key of an event: category, identifier and name
joined with colons; absent when the event has no identifier. -/
def syntheticKeyOf (event : AsyncEvent) : Option String :=
  (extractId event).map (fun i => event.cat ++ ":" ++ i ++ ":" ++ event.name)

/-- The last event in the list carrying the given key and phase. -/
def lastOfPhase (events : List AsyncEvent) (key : String) (p : Phase) : Option AsyncEvent :=
  (events.filter (fun e => decide (syntheticKeyOf e = some key ∧ e.ph = p))).getLast?

theorem mapGet_mapSet {κ β : Type} [DecidableEq κ] (m : List (κ × β)) (k key : κ) (v : β) :
    mapGet (mapSet m k v) key = if k = key then some v else mapGet m key := by
  induction m with
  | nil => simp [mapGet, mapSet]
  | cons hd rest ih =>
    obtain ⟨a, w⟩ := hd
    by_cases h1 : a = k
    · subst h1
      by_cases h2 : a = key <;> simp [mapGet, mapSet, h2]
    · by_cases h2 : a = key
      · subst h2
        have h3 : ¬ (k = a) := fun h => h1 h.symm
        simp [mapGet, mapSet, h1, h3]
      · simp [mapGet, mapSet, h1, h2, ih]

theorem lastOfPhase_eq_none_of_not_any (l : List AsyncEvent) (key : String) (p : Phase)
    (h : l.any (fun e => decide (syntheticKeyOf e = some key)) = false) :
    lastOfPhase l key p = none := by
  have hf : l.filter (fun e => decide (syntheticKeyOf e = some key ∧ e.ph = p)) = [] := by
    rw [List.filter_eq_nil_iff]
    intro a ha
    have hna := (List.any_eq_false.mp h) a ha
    simp only [decide_eq_true_eq] at hna ⊢
    exact fun hc => hna hc.1
  rw [lastOfPhase, hf]
  rfl

/-- C6: the matching map holds, per synthetic key, exactly one begin slot
and one end slot; the slots hold the last begin and the last end event
seen for that key (later events of the same phase overwrite earlier ones),
a key is present exactly when some identified event produced it, and
events without an identifier leave the computation unchanged. -/
theorem matchBeginningAndEndEvents_spec :
    (∀ (events : List AsyncEvent) (key : String),
      mapGet (matchBeginningAndEndEvents events) key =
        (if events.any (fun e => decide (syntheticKeyOf e = some key)) then
          some { beginEvent := lastOfPhase events key Phase.asyncNestableStart,
                 endEvent := lastOfPhase events key Phase.asyncNestableEnd }
        else none)) ∧
    ∀ (preceding following : List AsyncEvent) (e : AsyncEvent), extractId e = none →
      matchBeginningAndEndEvents (preceding ++ e :: following)
        = matchBeginningAndEndEvents (preceding ++ following) := by
  constructor
  · intro events key
    induction events using List.reverseRecOn with
    | nil => simp [matchBeginningAndEndEvents, mapGet]
    | append_singleton l e ih =>
      have hsnoc : matchBeginningAndEndEvents (l ++ [e])
          = matchStep (matchBeginningAndEndEvents l) e := by
        simp [matchBeginningAndEndEvents, List.foldl_append]
      rw [hsnoc]
      cases hx : extractId e with
      | none =>
        have hkey : syntheticKeyOf e = none := by simp [syntheticKeyOf, hx]
        simp only [matchStep, hx]
        rw [ih]
        simp [lastOfPhase, List.filter_append, List.any_append, hkey]
      | some i =>
        have hkey : syntheticKeyOf e = some (e.cat ++ ":" ++ i ++ ":" ++ e.name) := by
          simp [syntheticKeyOf, hx]
        simp only [matchStep, hx]
        rw [mapGet_mapSet]
        by_cases hk : e.cat ++ ":" ++ i ++ ":" ++ e.name = key
        · rw [if_pos hk]
          have hany : (l ++ [e]).any (fun ev => decide (syntheticKeyOf ev = some key)) = true := by
            simp [List.any_append, hkey, hk]
          rw [if_pos hany]
          have hcur : (mapGet (matchBeginningAndEndEvents l)
                (e.cat ++ ":" ++ i ++ ":" ++ e.name)).getD ⟨none, none⟩
              = EventPair.mk (lastOfPhase l key Phase.asyncNestableStart)
                  (lastOfPhase l key Phase.asyncNestableEnd) := by
            rw [hk, ih]
            by_cases hany_l : l.any (fun ev => decide (syntheticKeyOf ev = some key)) = true
            · simp [hany_l]
            · have hf : l.any (fun ev => decide (syntheticKeyOf ev = some key)) = false :=
                Bool.eq_false_iff.mpr hany_l
              simp [hf, lastOfPhase_eq_none_of_not_any l key _ hf]
          cases hph : e.ph with
          | asyncNestableStart =>
            have hlastb : lastOfPhase (l ++ [e]) key Phase.asyncNestableStart = some e := by
              rw [lastOfPhase, List.filter_append]
              have hfe : List.filter (fun ev => decide (syntheticKeyOf ev = some key ∧
                  ev.ph = Phase.asyncNestableStart)) [e] = [e] := by
                simp [hkey, hk, hph]
              rw [hfe, List.getLast?_concat]
            have hlaste : lastOfPhase (l ++ [e]) key Phase.asyncNestableEnd
                = lastOfPhase l key Phase.asyncNestableEnd := by
              rw [lastOfPhase, lastOfPhase, List.filter_append]
              have hfe : List.filter (fun ev => decide (syntheticKeyOf ev = some key ∧
                  ev.ph = Phase.asyncNestableEnd)) [e] = [] := by
                simp [hph]
              rw [hfe, List.append_nil]
            rw [hlastb, hlaste]
            simp [hph, hcur]
          | asyncNestableEnd =>
            have hlastb : lastOfPhase (l ++ [e]) key Phase.asyncNestableStart
                = lastOfPhase l key Phase.asyncNestableStart := by
              rw [lastOfPhase, lastOfPhase, List.filter_append]
              have hfe : List.filter (fun ev => decide (syntheticKeyOf ev = some key ∧
                  ev.ph = Phase.asyncNestableStart)) [e] = [] := by
                simp [hph]
              rw [hfe, List.append_nil]
            have hlaste : lastOfPhase (l ++ [e]) key Phase.asyncNestableEnd = some e := by
              rw [lastOfPhase, List.filter_append]
              have hfe : List.filter (fun ev => decide (syntheticKeyOf ev = some key ∧
                  ev.ph = Phase.asyncNestableEnd)) [e] = [e] := by
                simp [hkey, hk, hph]
              rw [hfe, List.getLast?_concat]
            rw [hlastb, hlaste]
            simp [hph, hcur]
          | asyncNestableInstant =>
            have hlastb : lastOfPhase (l ++ [e]) key Phase.asyncNestableStart
                = lastOfPhase l key Phase.asyncNestableStart := by
              rw [lastOfPhase, lastOfPhase, List.filter_append]
              have hfe : List.filter (fun ev => decide (syntheticKeyOf ev = some key ∧
                  ev.ph = Phase.asyncNestableStart)) [e] = [] := by
                simp [hph]
              rw [hfe, List.append_nil]
            have hlaste : lastOfPhase (l ++ [e]) key Phase.asyncNestableEnd
                = lastOfPhase l key Phase.asyncNestableEnd := by
              rw [lastOfPhase, lastOfPhase, List.filter_append]
              have hfe : List.filter (fun ev => decide (syntheticKeyOf ev = some key ∧
                  ev.ph = Phase.asyncNestableEnd)) [e] = [] := by
                simp [hph]
              rw [hfe, List.append_nil]
            rw [hlastb, hlaste]
            simp [hph, hcur]
        · rw [if_neg hk, ih]
          have hpe : (fun ev => decide (syntheticKeyOf ev = some key)) e = false := by
            simp [hkey, hk]
          have hany : (l ++ [e]).any (fun ev => decide (syntheticKeyOf ev = some key))
              = l.any (fun ev => decide (syntheticKeyOf ev = some key)) := by
            simp [List.any_append, hpe]
          have hlb : lastOfPhase (l ++ [e]) key Phase.asyncNestableStart
              = lastOfPhase l key Phase.asyncNestableStart := by
            rw [lastOfPhase, lastOfPhase, List.filter_append]
            have hfe : List.filter (fun ev => decide (syntheticKeyOf ev = some key ∧
                ev.ph = Phase.asyncNestableStart)) [e] = [] := by
              simp [hkey, hk]
            rw [hfe, List.append_nil]
          have hle : lastOfPhase (l ++ [e]) key Phase.asyncNestableEnd
              = lastOfPhase l key Phase.asyncNestableEnd := by
            rw [lastOfPhase, lastOfPhase, List.filter_append]
            have hfe : List.filter (fun ev => decide (syntheticKeyOf ev = some key ∧
                ev.ph = Phase.asyncNestableEnd)) [e] = [] := by
              simp [hkey, hk]
            rw [hfe, List.append_nil]
          rw [hany, hlb, hle]
  · intro preceding following e hx
    rw [matchBeginningAndEndEvents, matchBeginningAndEndEvents,
      List.foldl_append, List.foldl_append, List.foldl_cons]
    have hstep : ∀ m : List (String × EventPair), matchStep m e = m := by
      intro m
      simp [matchStep, hx]
    rw [hstep]

theorem matchBeginningAndEndEvents_spec_witness :
    matchBeginningAndEndEvents ([witnessBeginEvent] ++
        AsyncEvent.mk "c2" "n2" Phase.asyncNestableStart 1 2 3 none none :: [witnessEndEvent])
      = matchBeginningAndEndEvents ([witnessBeginEvent] ++ [witnessEndEvent]) :=
  matchBeginningAndEndEvents_spec.2 [witnessBeginEvent] [witnessEndEvent]
    (AsyncEvent.mk "c2" "n2" Phase.asyncNestableStart 1 2 3 none none) rfl

/-- A renderer entry; only its object identity matters to the engine, so it
is modelled as a Nat tag. -/
abbrev RendererEntry := Nat

/-- A node of the renderer tree: its entry and the ids of its children
(a Set in the source, iterated in insertion order by Array.from). -/
structure RendererEntryNode where
  entry : RendererEntry
  childrenIds : List Nat
deriving DecidableEq

/-- The renderer tree: a map from node id to node. -/
structure RendererTree where
  nodes : List (Nat × RendererEntryNode)
deriving DecidableEq

/-- A renderer thread: its entry list and its (possibly absent) tree. -/
structure RendererThread where
  entries : List RendererEntry
  tree : Option RendererTree
deriving DecidableEq

/-- The tag of a UserTreeAction: MERGE_FUNCTION or COLLAPSE_FUNCTION. -/
inductive ActionType where
  | mergeFunction
  | collapseFunction
deriving DecidableEq

/-- A user tree action: a tag and the entry it targets. -/
structure UserTreeAction where
  type : ActionType
  entry : RendererEntry
deriving DecidableEq

/-- The state of a TreeManipulator instance: the immutable thread and
entry-to-node map given at construction, the cached visible entries
(absent when invalidated) and the ordered active-action list. -/
structure TreeManipulator where
  thread : RendererThread
  entryToNode : List (RendererEntry × RendererEntryNode)
  lastVisibleEntries : Option (List RendererEntry)
  activeActions : List UserTreeAction
deriving DecidableEq

/-- Whether an active action with the same entry and type exists
(TreeManipulator actionIsActive). -/
def actionIsActive (s : TreeManipulator) (action : UserTreeAction) : Bool :=
  s.activeActions.any (fun activeAction =>
    decide (action.entry = activeAction.entry) && decide (action.type = activeAction.type))

/-- TreeManipulator applyAction: a no-op if the action is already active,
otherwise append it and clear the cache. -/
def applyAction (s : TreeManipulator) (action : UserTreeAction) : TreeManipulator :=
  if actionIsActive s action then s
  else { s with activeActions := s.activeActions ++ [action], lastVisibleEntries := none }

/-- Whether an active action matches the given one by type and entry. -/
def actionMatches (activeAction action : UserTreeAction) : Bool :=
  decide (activeAction.type = action.type) && decide (activeAction.entry = action.entry)

/-- TreeManipulator removeActiveAction: filter out matching actions; the
cache is cleared only when something was actually removed. -/
def removeActiveAction (s : TreeManipulator) (action : UserTreeAction) : TreeManipulator :=
  let removedAction := s.activeActions.any (fun a => actionMatches a action)
  let newActions := s.activeActions.filter (fun a => !actionMatches a action)
  if removedAction then { s with activeActions := newActions, lastVisibleEntries := none }
  else { s with activeActions := newActions }

/-- The worklist loop of findAllAncestorsOfNode. The source line
"if (!id) break;" leaves the loop when the dequeued id is falsy, which for
a numeric id means 0 (shift can never yield undefined here because the
loop guard requires a non-empty queue); this is modelled by the id = 0
test. The loop terminates for every parent-unique tree; the fuel argument
only serves as a termination bound for the recursion and is chosen large
enough in findAllAncestorsOfNode. -/
def ancestorsLoop (tree : RendererTree) : Nat → List Nat → List RendererEntry →
    List RendererEntry
  | 0, _, ancestors => ancestors
  | _ + 1, [], ancestors => ancestors
  | fuel + 1, childId :: childIds, ancestors =>
    if childId = 0 then ancestors
    else
      match mapGet tree.nodes childId with
      | some childNode =>
        ancestorsLoop tree fuel (childIds ++ childNode.childrenIds)
          (ancestors ++ [childNode.entry])
      | none => ancestorsLoop tree fuel childIds ancestors

/-- An iteration bound for the worklist loop: on a tree (each node id
occurring at most once among all children sets) every queue element comes
either from the initial queue or from one node's children list, so the
loop runs at most this many iterations. -/
def traversalFuel (tree : RendererTree) (root : RendererEntryNode) : Nat :=
  root.childrenIds.length + (tree.nodes.map (fun p => p.2.childrenIds.length)).sum + 1

/-- TreeManipulator findAllAncestorsOfNode: despite its name it walks the
children-id relation from the given node, collecting the entries of the
nodes it reaches. -/
def findAllAncestorsOfNode (tree : RendererTree) (root : RendererEntryNode) :
    List RendererEntry :=
  ancestorsLoop tree (traversalFuel tree root) root.childrenIds []

/-- The entries one action adds to the hidden set: a MERGE_FUNCTION action
hides its own entry; a COLLAPSE_FUNCTION action hides the traversal result
from its entry's node, or nothing when the entry has no node. -/
def actionHiddenEntries (entryToNode : List (RendererEntry × RendererEntryNode))
    (tree : RendererTree) (action : UserTreeAction) : List RendererEntry :=
  match action.type with
  | ActionType.mergeFunction => [action.entry]
  | ActionType.collapseFunction =>
    match mapGet entryToNode action.entry with
    | none => []
    | some entryNode => findAllAncestorsOfNode tree entryNode

/-- The hidden set accumulated over all active actions, each applied
against the original tree. -/
def entriesToHide (s : TreeManipulator) (tree : RendererTree) : List RendererEntry :=
  (s.activeActions.map (actionHiddenEntries s.entryToNode tree)).flatten

/-- TreeManipulator calculateVisibleEntries: return the cache when it is
present; without a tree return all entries; otherwise filter out the
hidden set and store the result in the cache. Returns the result together
with the possibly updated state. -/
def calculateVisibleEntries (s : TreeManipulator) :
    List RendererEntry × TreeManipulator :=
  match s.lastVisibleEntries with
  | some cached => (cached, s)
  | none =>
    match s.thread.tree with
    | none => (s.thread.entries, s)
    | some tree =>
      let hidden := entriesToHide s tree
      let visible := s.thread.entries.filter (fun entry => hidden.contains entry == false)
      (visible, { s with lastVisibleEntries := some visible })

/-- TreeManipulator visibleEntries: with no active actions return the
thread's entries unmodified, otherwise delegate to the calculation. -/
def visibleEntries (s : TreeManipulator) : List RendererEntry × TreeManipulator :=
  if s.activeActions.length = 0 then (s.thread.entries, s)
  else calculateVisibleEntries s

/-- C8: with an empty active-action list, visibleEntries returns the full
entry list of the thread unchanged and leaves the state untouched. -/
theorem visibleEntries_no_actions (s : TreeManipulator) (h : s.activeActions = []) :
    visibleEntries s = (s.thread.entries, s) := by
  simp [visibleEntries, h]

theorem visibleEntries_no_actions_witness :
    visibleEntries (TreeManipulator.mk (RendererThread.mk [4, 5] none) [] none [])
      = ([4, 5], TreeManipulator.mk (RendererThread.mk [4, 5] none) [] none []) :=
  visibleEntries_no_actions _ rfl

/-- C9: applying an action that is already active, or removing an action
that matches no active action, leaves the manipulator state (including the
cached visible-entry list) completely unchanged, so a later visibleEntries
call behaves exactly as before. -/
theorem redundant_action_calls_are_no_ops (s : TreeManipulator) (action : UserTreeAction) :
    (actionIsActive s action = true → applyAction s action = s ∧
      visibleEntries (applyAction s action) = visibleEntries s) ∧
    ((∀ a ∈ s.activeActions, actionMatches a action = false) → removeActiveAction s action = s ∧
      visibleEntries (removeActiveAction s action) = visibleEntries s) := by
  constructor
  · intro h
    have happ : applyAction s action = s := by simp [applyAction, h]
    exact ⟨happ, by rw [happ]⟩
  · intro h
    have hany : s.activeActions.any (fun a => actionMatches a action) = false := by
      rw [List.any_eq_false]
      intro x hx
      simp [h x hx]
    have hfil : s.activeActions.filter (fun a => !actionMatches a action) = s.activeActions := by
      rw [List.filter_eq_self]
      intro a ha
      simp [h a ha]
    have hrem : removeActiveAction s action = s := by
      simp [removeActiveAction, hany, hfil]
    exact ⟨hrem, by rw [hrem]⟩

theorem redundant_action_calls_are_no_ops_witness :
    (applyAction
        (TreeManipulator.mk (RendererThread.mk [4] none) [] (some [4])
          [UserTreeAction.mk ActionType.mergeFunction 4])
        (UserTreeAction.mk ActionType.mergeFunction 4)
      = TreeManipulator.mk (RendererThread.mk [4] none) [] (some [4])
          [UserTreeAction.mk ActionType.mergeFunction 4]) ∧
    removeActiveAction
        (TreeManipulator.mk (RendererThread.mk [4] none) [] (some [4])
          [UserTreeAction.mk ActionType.mergeFunction 4])
        (UserTreeAction.mk ActionType.collapseFunction 4)
      = TreeManipulator.mk (RendererThread.mk [4] none) [] (some [4])
          [UserTreeAction.mk ActionType.mergeFunction 4] :=
  ⟨((redundant_action_calls_are_no_ops _ _).1 (by decide)).1,
    ((redundant_action_calls_are_no_ops _ _).2 (by decide)).1⟩

/-- C10: when the thread has no tree, visibleEntries returns the full entry
list unchanged even when actions are active (the cache being empty, as it
is whenever the action list changed last). -/
theorem visibleEntries_no_tree (s : TreeManipulator)
    (hc : s.lastVisibleEntries = none) (ht : s.thread.tree = none) :
    (visibleEntries s).1 = s.thread.entries := by
  rw [visibleEntries]
  split
  · rfl
  · simp [calculateVisibleEntries, hc, ht]

theorem visibleEntries_no_tree_witness :
    (visibleEntries (TreeManipulator.mk (RendererThread.mk [4, 5] none) [] none
        [UserTreeAction.mk ActionType.mergeFunction 4,
          UserTreeAction.mk ActionType.collapseFunction 5])).1 = [4, 5] :=
  visibleEntries_no_tree _ rfl rfl

theorem entriesToHide_all_merge (entryToNode : List (RendererEntry × RendererEntryNode))
    (tree : RendererTree) :
    ∀ acts : List UserTreeAction, (∀ a ∈ acts, a.type = ActionType.mergeFunction) →
      (acts.map (actionHiddenEntries entryToNode tree)).flatten
        = acts.map (fun a => a.entry)
  | [], _ => rfl
  | act :: acts, h => by
    have hhd : actionHiddenEntries entryToNode tree act = [act.entry] := by
      have := h act (List.mem_cons_self act acts)
      simp [actionHiddenEntries, this]
    simp only [List.map_cons, List.flatten_cons, hhd]
    rw [entriesToHide_all_merge entryToNode tree acts
      (fun a ha => h a (List.mem_cons_of_mem act ha))]
    rfl

/-- C7: when every active action is a MERGE_FUNCTION action, visibleEntries
hides exactly the targeted entries: the result is the entry list filtered
only by "is targeted by some active action", so each MergeFunction action
hides its own entry and nothing else, and every untargeted entry (in
particular every child of a merged entry) stays visible. -/
theorem mergeFunction_hides_only_target (s : TreeManipulator) (t : RendererTree)
    (hc : s.lastVisibleEntries = none) (ht : s.thread.tree = some t)
    (hall : ∀ a ∈ s.activeActions, a.type = ActionType.mergeFunction) :
    (visibleEntries s).1 = s.thread.entries.filter
      (fun entry => !s.activeActions.any (fun a => decide (a.entry = entry))) ∧
    ∀ (e2n : List (RendererEntry × RendererEntryNode)) (t2 : RendererTree)
      (target : RendererEntry),
      actionHiddenEntries e2n t2 (UserTreeAction.mk ActionType.mergeFunction target)
        = [target] := by
  refine ⟨?_, fun e2n t2 target => rfl⟩
  rw [visibleEntries]
  by_cases hemp : s.activeActions.length = 0
  · rw [if_pos hemp]
    have hnil : s.activeActions = [] := List.length_eq_zero.mp hemp
    simp [hnil]
  · rw [if_neg hemp]
    rw [calculateVisibleEntries]
    rw [hc, ht]
    simp only []
    rw [show entriesToHide s t = s.activeActions.map (fun a => a.entry) from
      entriesToHide_all_merge s.entryToNode t s.activeActions hall]
    apply List.filter_congr
    intro entry _
    by_cases hm : entry ∈ s.activeActions.map (fun a => a.entry)
    · have h1 : (s.activeActions.map (fun a => a.entry)).contains entry = true := by
        rw [List.contains_iff_exists_mem_beq]
        exact ⟨entry, hm, by simp⟩
      have h2 : s.activeActions.any (fun a => decide (a.entry = entry)) = true := by
        rw [List.any_eq_true]
        obtain ⟨a, ha, hae⟩ := List.mem_map.mp hm
        exact ⟨a, ha, by simp [hae]⟩
      rw [h1, h2]
      rfl
    · have h1 : (s.activeActions.map (fun a => a.entry)).contains entry = false := by
        rw [Bool.eq_false_iff]
        intro hcon
        rw [List.contains_iff_exists_mem_beq] at hcon
        obtain ⟨a, ha, hbeq⟩ := hcon
        exact hm (by rwa [show a = entry from (by simpa using hbeq : entry = a).symm] at ha)
      have h2 : s.activeActions.any (fun a => decide (a.entry = entry)) = false := by
        rw [List.any_eq_false]
        intro a ha
        simp only [decide_eq_true_eq]
        intro hae
        exact hm (List.mem_map.mpr ⟨a, ha, hae⟩)
      rw [h1, h2]
      rfl

theorem mergeFunction_hides_only_target_witness :
    (visibleEntries (TreeManipulator.mk
        (RendererThread.mk [4, 5, 6] (some (RendererTree.mk []))) [] none
        [UserTreeAction.mk ActionType.mergeFunction 5])).1 = [4, 6] := by
  have h := mergeFunction_hides_only_target
    (TreeManipulator.mk (RendererThread.mk [4, 5, 6] (some (RendererTree.mk []))) [] none
      [UserTreeAction.mk ActionType.mergeFunction 5])
    (RendererTree.mk []) rfl rfl (by decide)
  rw [h.1]
  decide

/-- The specification's strict-descendant traversal, stated from the spec
text for comparison with the implemented traversal: collect the entry of
every node reachable by transitively following children ids, with no
early exit on any particular id value. The fuel argument is only a
termination bound, as in ancestorsLoop. -/
def strictDescendantsLoop (tree : RendererTree) : Nat → List Nat → List RendererEntry
  | 0, _ => []
  | _ + 1, [] => []
  | fuel + 1, childId :: childIds =>
    match mapGet tree.nodes childId with
    | some node => node.entry :: strictDescendantsLoop tree fuel (childIds ++ node.childrenIds)
    | none => strictDescendantsLoop tree fuel childIds

/-- The strict descendants of a node as the specification defines them. -/
def specStrictDescendants (tree : RendererTree) (root : RendererEntryNode) :
    List RendererEntry :=
  strictDescendantsLoop tree (traversalFuel tree root) root.childrenIds

/-- A tree in which the collapse target (node 1, entry 10) has the two
children node 0 (entry 20) and node 2 (entry 30); node id 0 is falsy in
JavaScript. -/
def zeroIdTree : RendererTree :=
  RendererTree.mk [(1, RendererEntryNode.mk 10 [0, 2]),
    (0, RendererEntryNode.mk 20 []), (2, RendererEntryNode.mk 30 [])]

/-- A manipulator whose only active action collapses entry 10 in
zeroIdTree, with an empty cache. -/
def zeroIdCollapseState : TreeManipulator :=
  TreeManipulator.mk (RendererThread.mk [10, 20, 30] (some zeroIdTree))
    [(10, RendererEntryNode.mk 10 [0, 2])] none
    [UserTreeAction.mk ActionType.collapseFunction 10]

/-- C1 fails on the code: in zeroIdCollapseState the collapse target has a
node in the tree and its strict descendants per the specification are
entries 20 and 30, yet visibleEntries still contains both, because the
implemented traversal breaks out of its loop at the falsy node id 0
before hiding anything. -/
theorem collapseFunction_zero_id_divergence :
    mapGet zeroIdCollapseState.entryToNode 10 = some (RendererEntryNode.mk 10 [0, 2]) ∧
    specStrictDescendants zeroIdTree (RendererEntryNode.mk 10 [0, 2]) = [20, 30] ∧
    (visibleEntries zeroIdCollapseState).1 = [10, 20, 30] ∧
    20 ∈ (visibleEntries zeroIdCollapseState).1 := by
  decide

/-- The same tree shape with the non-zero node ids 3 and 2 behaves as the
specification demands: both descendants are hidden and the collapse target
stays visible. This isolates the divergence above to the falsy-id check. -/
def positiveIdTree : RendererTree :=
  RendererTree.mk [(1, RendererEntryNode.mk 10 [3, 2]),
    (3, RendererEntryNode.mk 20 []), (2, RendererEntryNode.mk 30 [])]

/-- A manipulator collapsing entry 10 in positiveIdTree. -/
def positiveIdCollapseState : TreeManipulator :=
  TreeManipulator.mk (RendererThread.mk [10, 20, 30] (some positiveIdTree))
    [(10, RendererEntryNode.mk 10 [3, 2])] none
    [UserTreeAction.mk ActionType.collapseFunction 10]

theorem collapseFunction_positive_ids_hide_descendants :
    specStrictDescendants positiveIdTree (RendererEntryNode.mk 10 [3, 2]) = [20, 30] ∧
    (visibleEntries positiveIdCollapseState).1 = [10] := by
  decide

end DevTools
